import Mathlib

/-!
Verification of the URL routing table declared in parkhang/api/urls.py.

The file under study declares, in Django 1.x style,

  urlpatterns = [
      url(texts/$, TextList.as_view()),
      url(texts/(?P<text_id>[0-9]+)/?$, TextDetail.as_view()),
      url(texts/(?P<text_id>[0-9]+)/witnesses/$, WitnessList.as_view()),
      url(texts/(?P<text_id>[0-9]+)/annotations/$, AnnotationList.as_view()),
  ]

We embed the regular expressions as a small syntax tree covering exactly the
constructs that occur in the four patterns: literal characters, the character
class [0-9], concatenation, the postfix operators ? and +, and the single
named capture group text_id.  The trailing anchor $ combined with re.search
(Django matches each pattern against the path with search, and none of the
patterns is anchored at the start with ^) is modelled as: some suffix of the
path is matched entirely by the pattern.  Resolution is modelled as Django
resolves: the first entry of urlpatterns, in list order, whose pattern
search-matches the path wins, and the value captured by the text_id group is
passed on.
-/

set_option autoImplicit false

/-- Syntax of the regular-expression fragment used in urls.py: the empty
expression, literal characters, the character class [0-9], concatenation,
postfix ? and +, and the named capture group around a subexpression. -/
inductive Re : Type where
  | eps : Re
  | lit : Char → Re
  | digit : Re
  | seq : Re → Re → Re
  | opt : Re → Re
  | plus : Re → Re
  | group : Re → Re

/-- n-fold concatenation of a language, used for the semantics of +. -/
def matPow (M : List Char → Prop) : Nat → List Char → Prop
  | 0, w => w = []
  | n + 1, w => ∃ w1 w2, w = w1 ++ w2 ∧ M w1 ∧ matPow M n w2

/-- Mat r w g holds when the regular expression r matches exactly the
character list w, and g is the value captured by the named group (none when
no group takes part in the match).  In a repetition the mandatory first
iteration carries the capture; the patterns of urls.py never place the group
under a repetition, so the convention is irrelevant to them. -/
def Mat : Re → List Char → Option (List Char) → Prop
  | Re.eps, w, g => w = [] ∧ g = none
  | Re.lit c, w, g => w = [c] ∧ g = none
  | Re.digit, w, g => (∃ c, c.isDigit ∧ w = [c]) ∧ g = none
  | Re.seq a b, w, g =>
      ∃ w1 w2 g1 g2, w = w1 ++ w2 ∧ Mat a w1 g1 ∧ Mat b w2 g2 ∧
        g = Option.orElse g1 (fun _ => g2)
  | Re.opt r, w, g => Mat r w g ∨ (w = [] ∧ g = none)
  | Re.plus r, w, g =>
      ∃ w1 w2, w = w1 ++ w2 ∧ Mat r w1 g ∧
        ∃ n, matPow (fun v => Mat r v none) n w2
  | Re.group r, w, g => (∃ gi, Mat r w gi) ∧ g = some w

/-- The regular expression matching a fixed character list. -/
def rstrL : List Char → Re
  | [] => Re.eps
  | c :: cs => Re.seq (Re.lit c) (rstrL cs)

/-- The regular expression matching a fixed string literally. -/
def rstr (s : String) : Re := rstrL s.toList

/-- The named capture group (?P<text_id>[0-9]+) shared by three patterns. -/
def textIdGroup : Re := Re.group (Re.plus Re.digit)

/-- The pattern texts/$ of the TextList entry, without its trailing anchor. -/
def pat1 : Re := rstr "texts/"

/-- The pattern texts/(?P<text_id>[0-9]+)/?$ of the TextDetail entry,
without its trailing anchor. -/
def pat2 : Re := Re.seq (rstr "texts/") (Re.seq textIdGroup (Re.opt (Re.lit '/')))

/-- The pattern texts/(?P<text_id>[0-9]+)/witnesses/$ of the WitnessList
entry, without its trailing anchor. -/
def pat3 : Re := Re.seq (rstr "texts/") (Re.seq textIdGroup (rstr "/witnesses/"))

/-- The pattern texts/(?P<text_id>[0-9]+)/annotations/$ of the
AnnotationList entry, without its trailing anchor. -/
def pat4 : Re := Re.seq (rstr "texts/") (Re.seq textIdGroup (rstr "/annotations/"))

/-- The four view handlers named in urls.py. -/
inductive Handler : Type where
  | TextList : Handler
  | TextDetail : Handler
  | WitnessList : Handler
  | AnnotationList : Handler
deriving DecidableEq

/-- One entry of urlpatterns: a pattern and the view it routes to. -/
structure UrlEntry : Type where
  regex : Re
  view : Handler

/-- The routing table urlpatterns, in source order. -/
def urlpatterns : List UrlEntry :=
  [⟨pat1, Handler.TextList⟩, ⟨pat2, Handler.TextDetail⟩,
   ⟨pat3, Handler.WitnessList⟩, ⟨pat4, Handler.AnnotationList⟩]

/-- re.search applied to a pattern whose regex ends with the anchor $.  In
Python regular expressions $ matches at the end of the string and also just
before a newline that ends the string, so the pattern matches the path s
when the regex matches entirely some suffix of s, or some suffix of s short
of a single final newline character, with capture g. -/
def SearchEnd (r : Re) (s : List Char) (g : Option (List Char)) : Prop :=
  ∃ p w, (s = p ++ w ∨ s = p ++ w ++ ['\n']) ∧ Mat r w g

/-- The pattern search-matches the path with some capture. -/
def SMatches (r : Re) (s : List Char) : Prop :=
  ∃ g, SearchEnd r s g

/-- First-match resolution over a list of entries, as Django resolves a
path against urlpatterns: the path resolves to the view of the first entry
whose pattern search-matches it, with g a capture of that match; later
entries are consulted only when every earlier pattern fails to match. -/
def Resolves : List UrlEntry → List Char → Handler → Option (List Char) → Prop
  | [], _, _, _ => False
  | e :: es, s, h, g =>
      (SearchEnd e.regex s g ∧ h = e.view) ∨
      (¬ SMatches e.regex s ∧ Resolves es s h g)

/-! ### Character-list renderings of the string literals of urls.py -/

theorem texts_chars : "texts/".toList = ['t', 'e', 'x', 't', 's', '/'] := rfl

theorem texts5_chars : "texts".toList = ['t', 'e', 'x', 't', 's'] := rfl

theorem wit_chars :
    "/witnesses/".toList = ['/', 'w', 'i', 't', 'n', 'e', 's', 's', 'e', 's', '/'] := rfl

theorem ann_chars :
    "/annotations/".toList =
      ['/', 'a', 'n', 'n', 'o', 't', 'a', 't', 'i', 'o', 'n', 's', '/'] := rfl

/-! ### Characterizations of the match relation -/

theorem orElse_none_left {α : Type} (g : Option α) :
    Option.orElse none (fun _ => g) = g := rfl

theorem orElse_some_left {α : Type} (a : α) (g : Option α) :
    Option.orElse (some a) (fun _ => g) = some a := rfl

theorem mat_eps_unfold (w : List Char) (g : Option (List Char)) :
    Mat Re.eps w g ↔ (w = [] ∧ g = none) := Iff.rfl

theorem mat_lit_unfold (c : Char) (w : List Char) (g : Option (List Char)) :
    Mat (Re.lit c) w g ↔ (w = [c] ∧ g = none) := Iff.rfl

theorem mat_digit_unfold (w : List Char) (g : Option (List Char)) :
    Mat Re.digit w g ↔ ((∃ c, c.isDigit ∧ w = [c]) ∧ g = none) := Iff.rfl

theorem mat_seq_unfold (a b : Re) (w : List Char) (g : Option (List Char)) :
    Mat (Re.seq a b) w g ↔
      (∃ w1 w2 g1 g2, w = w1 ++ w2 ∧ Mat a w1 g1 ∧ Mat b w2 g2 ∧
        g = Option.orElse g1 (fun _ => g2)) := Iff.rfl

theorem mat_opt_unfold (r : Re) (w : List Char) (g : Option (List Char)) :
    Mat (Re.opt r) w g ↔ (Mat r w g ∨ (w = [] ∧ g = none)) := Iff.rfl

theorem mat_plus_unfold (r : Re) (w : List Char) (g : Option (List Char)) :
    Mat (Re.plus r) w g ↔
      (∃ w1 w2, w = w1 ++ w2 ∧ Mat r w1 g ∧
        ∃ n, matPow (fun v => Mat r v none) n w2) := Iff.rfl

theorem mat_group_unfold (r : Re) (w : List Char) (g : Option (List Char)) :
    Mat (Re.group r) w g ↔ ((∃ gi, Mat r w gi) ∧ g = some w) := Iff.rfl

theorem mat_rstrL : ∀ (t w : List Char) (g : Option (List Char)),
    Mat (rstrL t) w g ↔ (w = t ∧ g = none) := by
  intro t
  induction t with
  | nil => intro w g; simp [rstrL, mat_eps_unfold]
  | cons c cs ih =>
      intro w g
      simp only [rstrL]
      rw [mat_seq_unfold]
      constructor
      · rintro ⟨w1, w2, g1, g2, rfl, h1, h2, rfl⟩
        obtain ⟨rfl, rfl⟩ := (mat_lit_unfold c w1 g1).mp h1
        obtain ⟨rfl, rfl⟩ := (ih w2 g2).mp h2
        exact ⟨rfl, rfl⟩
      · rintro ⟨rfl, rfl⟩
        exact ⟨[c], cs, none, none, rfl, ⟨rfl, rfl⟩, (ih cs none).mpr ⟨rfl, rfl⟩, rfl⟩

theorem matPow_digit_sound : ∀ (n : Nat) (w : List Char),
    matPow (fun v => Mat Re.digit v none) n w → ∀ c ∈ w, c.isDigit := by
  intro n
  induction n with
  | zero =>
      intro w hw c hc
      simp only [matPow] at hw
      subst hw
      cases hc
  | succ n ih =>
      intro w hw c hc
      simp only [matPow] at hw
      obtain ⟨w1, w2, rfl, h1, h2⟩ := hw
      obtain ⟨⟨x, hx, rfl⟩, -⟩ := h1
      rcases List.mem_append.mp hc with hm | hm
      · rcases List.mem_singleton.mp hm with rfl
        exact hx
      · exact ih w2 h2 c hm

theorem matPow_digit_complete : ∀ (w : List Char), (∀ c ∈ w, c.isDigit) →
    matPow (fun v => Mat Re.digit v none) w.length w := by
  intro w
  induction w with
  | nil => intro; simp [matPow]
  | cons c cs ih =>
      intro h
      simp only [List.length_cons, matPow]
      refine ⟨[c], cs, rfl, ⟨⟨c, h c (List.mem_cons_self c cs), rfl⟩, rfl⟩, ih ?_⟩
      intro x hx
      exact h x (List.mem_cons_of_mem c hx)

theorem mat_plus_digit {w : List Char} {g : Option (List Char)} :
    Mat (Re.plus Re.digit) w g ↔ (w ≠ [] ∧ (∀ c ∈ w, c.isDigit)) ∧ g = none := by
  rw [mat_plus_unfold]
  constructor
  · rintro ⟨w1, w2, rfl, h1, n, hp⟩
    obtain ⟨⟨c, hc, rfl⟩, rfl⟩ := (mat_digit_unfold w1 g).mp h1
    refine ⟨⟨by simp, ?_⟩, rfl⟩
    intro x hx
    rcases List.mem_append.mp hx with hm | hm
    · rcases List.mem_singleton.mp hm with rfl
      exact hc
    · exact matPow_digit_sound n w2 hp x hm
  · rintro ⟨⟨hne, hdig⟩, rfl⟩
    obtain ⟨c, cs, rfl⟩ := List.exists_cons_of_ne_nil hne
    exact ⟨[c], cs, rfl, ⟨⟨c, hdig c (List.mem_cons_self c cs), rfl⟩, rfl⟩,
      cs.length, matPow_digit_complete cs (fun x hx => hdig x (List.mem_cons_of_mem c hx))⟩

theorem mat_textIdGroup {w : List Char} {g : Option (List Char)} :
    Mat textIdGroup w g ↔ (w ≠ [] ∧ (∀ c ∈ w, c.isDigit)) ∧ g = some w := by
  simp only [textIdGroup]
  rw [mat_group_unfold]
  constructor
  · rintro ⟨⟨gi, hgi⟩, rfl⟩
    exact ⟨(mat_plus_digit.mp hgi).1, rfl⟩
  · rintro ⟨h, rfl⟩
    exact ⟨⟨none, mat_plus_digit.mpr ⟨h, rfl⟩⟩, rfl⟩

theorem mat_pat1 {w : List Char} {g : Option (List Char)} :
    Mat pat1 w g ↔ (w = "texts/".toList ∧ g = none) := by
  simp only [pat1, rstr]
  exact mat_rstrL _ w g

theorem mat_pat2 {w : List Char} {g : Option (List Char)} :
    Mat pat2 w g ↔ ∃ d, d ≠ [] ∧ (∀ c ∈ d, c.isDigit) ∧ g = some d ∧
      (w = "texts/".toList ++ d ++ ['/'] ∨ w = "texts/".toList ++ d) := by
  simp only [pat2, rstr]
  rw [mat_seq_unfold]
  constructor
  · rintro ⟨w1, w2, g1, g2, rfl, h1, h2, rfl⟩
    obtain ⟨rfl, rfl⟩ := (mat_rstrL _ w1 g1).mp h1
    rw [mat_seq_unfold] at h2
    obtain ⟨a, b, ga, gb, rfl, hga, hgb, rfl⟩ := h2
    obtain ⟨⟨hane, hadig⟩, rfl⟩ := mat_textIdGroup.mp hga
    rw [mat_opt_unfold] at hgb
    rcases hgb with hl | ⟨rfl, rfl⟩
    · obtain ⟨rfl, rfl⟩ := (mat_lit_unfold '/' b gb).mp hl
      exact ⟨a, hane, hadig, rfl, Or.inl (by simp [List.append_assoc])⟩
    · exact ⟨a, hane, hadig, rfl, Or.inr (by simp)⟩
  · rintro ⟨d, hne, hdig, rfl, rfl | rfl⟩
    · refine ⟨"texts/".toList, d ++ ['/'], none, some d, by simp [List.append_assoc],
        (mat_rstrL _ _ none).mpr ⟨rfl, rfl⟩, ?_, rfl⟩
      rw [mat_seq_unfold]
      exact ⟨d, ['/'], some d, none, rfl, mat_textIdGroup.mpr ⟨⟨hne, hdig⟩, rfl⟩,
        (mat_opt_unfold _ _ _).mpr (Or.inl ((mat_lit_unfold '/' _ _).mpr ⟨rfl, rfl⟩)), rfl⟩
    · refine ⟨"texts/".toList, d, none, some d, rfl,
        (mat_rstrL _ _ none).mpr ⟨rfl, rfl⟩, ?_, rfl⟩
      rw [mat_seq_unfold]
      exact ⟨d, [], some d, none, by simp, mat_textIdGroup.mpr ⟨⟨hne, hdig⟩, rfl⟩,
        (mat_opt_unfold _ _ _).mpr (Or.inr ⟨rfl, rfl⟩), rfl⟩

theorem mat_pat3 {w : List Char} {g : Option (List Char)} :
    Mat pat3 w g ↔ ∃ d, d ≠ [] ∧ (∀ c ∈ d, c.isDigit) ∧ g = some d ∧
      w = "texts/".toList ++ d ++ "/witnesses/".toList := by
  simp only [pat3, rstr]
  rw [mat_seq_unfold]
  constructor
  · rintro ⟨w1, w2, g1, g2, rfl, h1, h2, rfl⟩
    obtain ⟨rfl, rfl⟩ := (mat_rstrL _ w1 g1).mp h1
    rw [mat_seq_unfold] at h2
    obtain ⟨a, b, ga, gb, rfl, hga, hgb, rfl⟩ := h2
    obtain ⟨⟨hane, hadig⟩, rfl⟩ := mat_textIdGroup.mp hga
    obtain ⟨rfl, rfl⟩ := (mat_rstrL _ b gb).mp hgb
    exact ⟨a, hane, hadig, rfl, by simp [List.append_assoc]⟩
  · rintro ⟨d, hne, hdig, rfl, rfl⟩
    refine ⟨"texts/".toList, d ++ "/witnesses/".toList, none, some d,
      by simp [List.append_assoc], (mat_rstrL _ _ none).mpr ⟨rfl, rfl⟩, ?_, rfl⟩
    rw [mat_seq_unfold]
    exact ⟨d, "/witnesses/".toList, some d, none, rfl, mat_textIdGroup.mpr ⟨⟨hne, hdig⟩, rfl⟩,
      (mat_rstrL _ _ none).mpr ⟨rfl, rfl⟩, rfl⟩

theorem mat_pat4 {w : List Char} {g : Option (List Char)} :
    Mat pat4 w g ↔ ∃ d, d ≠ [] ∧ (∀ c ∈ d, c.isDigit) ∧ g = some d ∧
      w = "texts/".toList ++ d ++ "/annotations/".toList := by
  simp only [pat4, rstr]
  rw [mat_seq_unfold]
  constructor
  · rintro ⟨w1, w2, g1, g2, rfl, h1, h2, rfl⟩
    obtain ⟨rfl, rfl⟩ := (mat_rstrL _ w1 g1).mp h1
    rw [mat_seq_unfold] at h2
    obtain ⟨a, b, ga, gb, rfl, hga, hgb, rfl⟩ := h2
    obtain ⟨⟨hane, hadig⟩, rfl⟩ := mat_textIdGroup.mp hga
    obtain ⟨rfl, rfl⟩ := (mat_rstrL _ b gb).mp hgb
    exact ⟨a, hane, hadig, rfl, by simp [List.append_assoc]⟩
  · rintro ⟨d, hne, hdig, rfl, rfl⟩
    refine ⟨"texts/".toList, d ++ "/annotations/".toList, none, some d,
      by simp [List.append_assoc], (mat_rstrL _ _ none).mpr ⟨rfl, rfl⟩, ?_, rfl⟩
    rw [mat_seq_unfold]
    exact ⟨d, "/annotations/".toList, some d, none, rfl, mat_textIdGroup.mpr ⟨⟨hne, hdig⟩, rfl⟩,
      (mat_rstrL _ _ none).mpr ⟨rfl, rfl⟩, rfl⟩

/-! ### Search matching seen from the end of the path -/

theorem searchend_iff_rev {r : Re} {s : List Char} {g : Option (List Char)} :
    SearchEnd r s g ↔ ∃ w q,
      (s.reverse = w.reverse ++ q ∨ s.reverse = '\n' :: (w.reverse ++ q)) ∧
      Mat r w g := by
  constructor
  · rintro ⟨p, w, hsp | hsp, hm⟩
    · subst hsp
      exact ⟨w, p.reverse, Or.inl (by simp), hm⟩
    · subst hsp
      exact ⟨w, p.reverse, Or.inr (by simp), hm⟩
  · rintro ⟨w, q, hq | hq, hm⟩
    · refine ⟨q.reverse, w, Or.inl ?_, hm⟩
      have h := congrArg List.reverse hq
      simpa using h
    · refine ⟨q.reverse, w, Or.inr ?_, hm⟩
      have h := congrArg List.reverse hq
      simpa using h

theorem searchend_pat1_iff {s : List Char} {g : Option (List Char)} :
    SearchEnd pat1 s g ↔
      g = none ∧ ∃ q,
        (s.reverse = ['/', 's', 't', 'x', 'e', 't'] ++ q ∨
         s.reverse = '\n' :: (['/', 's', 't', 'x', 'e', 't'] ++ q)) := by
  rw [searchend_iff_rev]
  constructor
  · rintro ⟨w, q, hrev | hrev, hm⟩
    · obtain ⟨rfl, rfl⟩ := mat_pat1.mp hm
      exact ⟨rfl, q, Or.inl (by simpa [texts_chars] using hrev)⟩
    · obtain ⟨rfl, rfl⟩ := mat_pat1.mp hm
      exact ⟨rfl, q, Or.inr (by simpa [texts_chars] using hrev)⟩
  · rintro ⟨rfl, q, hq | hq⟩
    · exact ⟨"texts/".toList, q, Or.inl (by simpa [texts_chars] using hq),
        mat_pat1.mpr ⟨rfl, rfl⟩⟩
    · exact ⟨"texts/".toList, q, Or.inr (by simpa [texts_chars] using hq),
        mat_pat1.mpr ⟨rfl, rfl⟩⟩

theorem searchend_pat2_iff {s : List Char} {g : Option (List Char)} :
    SearchEnd pat2 s g ↔ ∃ d q, d ≠ [] ∧ (∀ c ∈ d, c.isDigit) ∧ g = some d ∧
      (s.reverse = '/' :: (d.reverse ++ (['/', 's', 't', 'x', 'e', 't'] ++ q)) ∨
       s.reverse = d.reverse ++ (['/', 's', 't', 'x', 'e', 't'] ++ q) ∨
       s.reverse = '\n' :: '/' :: (d.reverse ++ (['/', 's', 't', 'x', 'e', 't'] ++ q)) ∨
       s.reverse = '\n' :: (d.reverse ++ (['/', 's', 't', 'x', 'e', 't'] ++ q))) := by
  rw [searchend_iff_rev]
  constructor
  · rintro ⟨w, q, hrev | hrev, hm⟩
    · obtain ⟨d, hne, hdig, rfl, hw | hw⟩ := mat_pat2.mp hm
      · subst hw
        exact ⟨d, q, hne, hdig, rfl, Or.inl (by simpa [texts_chars] using hrev)⟩
      · subst hw
        exact ⟨d, q, hne, hdig, rfl, Or.inr (Or.inl (by simpa [texts_chars] using hrev))⟩
    · obtain ⟨d, hne, hdig, rfl, hw | hw⟩ := mat_pat2.mp hm
      · subst hw
        exact ⟨d, q, hne, hdig, rfl,
          Or.inr (Or.inr (Or.inl (by simpa [texts_chars] using hrev)))⟩
      · subst hw
        exact ⟨d, q, hne, hdig, rfl,
          Or.inr (Or.inr (Or.inr (by simpa [texts_chars] using hrev)))⟩
  · rintro ⟨d, q, hne, hdig, rfl, hq | hq | hq | hq⟩
    · exact ⟨"texts/".toList ++ d ++ ['/'], q, Or.inl (by simpa [texts_chars] using hq),
        mat_pat2.mpr ⟨d, hne, hdig, rfl, Or.inl rfl⟩⟩
    · exact ⟨"texts/".toList ++ d, q, Or.inl (by simpa [texts_chars] using hq),
        mat_pat2.mpr ⟨d, hne, hdig, rfl, Or.inr rfl⟩⟩
    · exact ⟨"texts/".toList ++ d ++ ['/'], q, Or.inr (by simpa [texts_chars] using hq),
        mat_pat2.mpr ⟨d, hne, hdig, rfl, Or.inl rfl⟩⟩
    · exact ⟨"texts/".toList ++ d, q, Or.inr (by simpa [texts_chars] using hq),
        mat_pat2.mpr ⟨d, hne, hdig, rfl, Or.inr rfl⟩⟩

theorem searchend_pat3_iff {s : List Char} {g : Option (List Char)} :
    SearchEnd pat3 s g ↔ ∃ d q, d ≠ [] ∧ (∀ c ∈ d, c.isDigit) ∧ g = some d ∧
      (s.reverse = '/' :: 's' :: 'e' :: 's' :: 's' :: 'e' :: 'n' :: 't' :: 'i' :: 'w' :: '/' ::
        (d.reverse ++ (['/', 's', 't', 'x', 'e', 't'] ++ q)) ∨
       s.reverse = '\n' :: '/' :: 's' :: 'e' :: 's' :: 's' :: 'e' :: 'n' :: 't' :: 'i' :: 'w' ::
        '/' :: (d.reverse ++ (['/', 's', 't', 'x', 'e', 't'] ++ q))) := by
  rw [searchend_iff_rev]
  constructor
  · rintro ⟨w, q, hrev | hrev, hm⟩
    · obtain ⟨d, hne, hdig, rfl, hw⟩ := mat_pat3.mp hm
      subst hw
      exact ⟨d, q, hne, hdig, rfl, Or.inl (by simpa [texts_chars, wit_chars] using hrev)⟩
    · obtain ⟨d, hne, hdig, rfl, hw⟩ := mat_pat3.mp hm
      subst hw
      exact ⟨d, q, hne, hdig, rfl, Or.inr (by simpa [texts_chars, wit_chars] using hrev)⟩
  · rintro ⟨d, q, hne, hdig, rfl, hq | hq⟩
    · exact ⟨"texts/".toList ++ d ++ "/witnesses/".toList, q,
        Or.inl (by simpa [texts_chars, wit_chars] using hq),
        mat_pat3.mpr ⟨d, hne, hdig, rfl, rfl⟩⟩
    · exact ⟨"texts/".toList ++ d ++ "/witnesses/".toList, q,
        Or.inr (by simpa [texts_chars, wit_chars] using hq),
        mat_pat3.mpr ⟨d, hne, hdig, rfl, rfl⟩⟩

theorem searchend_pat4_iff {s : List Char} {g : Option (List Char)} :
    SearchEnd pat4 s g ↔ ∃ d q, d ≠ [] ∧ (∀ c ∈ d, c.isDigit) ∧ g = some d ∧
      (s.reverse = '/' :: 's' :: 'n' :: 'o' :: 'i' :: 't' :: 'a' :: 't' :: 'o' :: 'n' :: 'n' ::
        'a' :: '/' :: (d.reverse ++ (['/', 's', 't', 'x', 'e', 't'] ++ q)) ∨
       s.reverse = '\n' :: '/' :: 's' :: 'n' :: 'o' :: 'i' :: 't' :: 'a' :: 't' :: 'o' :: 'n' ::
        'n' :: 'a' :: '/' :: (d.reverse ++ (['/', 's', 't', 'x', 'e', 't'] ++ q))) := by
  rw [searchend_iff_rev]
  constructor
  · rintro ⟨w, q, hrev | hrev, hm⟩
    · obtain ⟨d, hne, hdig, rfl, hw⟩ := mat_pat4.mp hm
      subst hw
      exact ⟨d, q, hne, hdig, rfl, Or.inl (by simpa [texts_chars, ann_chars] using hrev)⟩
    · obtain ⟨d, hne, hdig, rfl, hw⟩ := mat_pat4.mp hm
      subst hw
      exact ⟨d, q, hne, hdig, rfl, Or.inr (by simpa [texts_chars, ann_chars] using hrev)⟩
  · rintro ⟨d, q, hne, hdig, rfl, hq | hq⟩
    · exact ⟨"texts/".toList ++ d ++ "/annotations/".toList, q,
        Or.inl (by simpa [texts_chars, ann_chars] using hq),
        mat_pat4.mpr ⟨d, hne, hdig, rfl, rfl⟩⟩
    · exact ⟨"texts/".toList ++ d ++ "/annotations/".toList, q,
        Or.inr (by simpa [texts_chars, ann_chars] using hq),
        mat_pat4.mpr ⟨d, hne, hdig, rfl, rfl⟩⟩

/-! ### Facts about digit strings and slash-free segments -/

theorem digits_no_slash {d : List Char} (hdig : ∀ c ∈ d, c.isDigit) : ¬ '/' ∈ d :=
  fun hm => absurd (hdig '/' hm) (by decide)

theorem rev_head_digit {d : List Char} (hne : d ≠ []) (hdig : ∀ c ∈ d, c.isDigit) :
    ∃ x xs, d.reverse = x :: xs ∧ x.isDigit := by
  obtain ⟨x, xs, hx⟩ := List.exists_cons_of_ne_nil (by simpa using hne :
    d.reverse ≠ [])
  refine ⟨x, xs, hx, hdig x ?_⟩
  rw [← List.mem_reverse, hx]
  exact List.mem_cons_self x xs

theorem noslash_append_inj : ∀ (a b u v : List Char), ¬ '/' ∈ a → ¬ '/' ∈ b →
    a ++ '/' :: u = b ++ '/' :: v → a = b ∧ u = v := by
  intro a
  induction a with
  | nil =>
      intro b u v _ hb h
      cases b with
      | nil =>
          simp only [List.nil_append] at h
          injection h with _ h2
          exact ⟨rfl, h2⟩
      | cons y ys =>
          simp only [List.nil_append, List.cons_append] at h
          injection h with h1 _
          apply absurd _ hb
          rw [← h1]
          exact List.mem_cons_self '/' ys
  | cons x xs ih =>
      intro b u v ha hb h
      cases b with
      | nil =>
          simp only [List.cons_append, List.nil_append] at h
          injection h with h1 _
          apply absurd _ ha
          rw [h1]
          exact List.mem_cons_self '/' xs
      | cons y ys =>
          simp only [List.cons_append] at h
          injection h with h1 h2
          obtain ⟨h3, h4⟩ := ih ys u v (fun hm => ha (List.mem_cons_of_mem x hm))
            (fun hm => hb (List.mem_cons_of_mem y hm)) h2
          subst h1
          subst h3
          exact ⟨rfl, h4⟩

/-! ### Paths that a given pattern cannot search-match -/

theorem not_smatches_pat1_digit_end {s : List Char} {x : Char} {r : List Char}
    (hrev : s.reverse = x :: r) (hx : x.isDigit) : ¬ SMatches pat1 s := by
  rintro ⟨g, hs⟩
  obtain ⟨-, q, hq | hq⟩ := searchend_pat1_iff.mp hs
  · rw [hrev] at hq
    simp only [List.cons_append, List.nil_append] at hq
    injection hq with h1 _
    subst h1
    exact absurd hx (by decide)
  · rw [hrev] at hq
    injection hq with h1 _
    subst h1
    exact absurd hx (by decide)

theorem not_smatches_pat1_slash_digit {s : List Char} {x : Char} {r : List Char}
    (hrev : s.reverse = '/' :: x :: r) (hx : x.isDigit) : ¬ SMatches pat1 s := by
  rintro ⟨g, hs⟩
  obtain ⟨-, q, hq | hq⟩ := searchend_pat1_iff.mp hs
  · rw [hrev] at hq
    simp only [List.cons_append, List.nil_append] at hq
    injection hq with _ hq
    injection hq with h2 _
    subst h2
    exact absurd hx (by decide)
  · rw [hrev] at hq
    injection hq with h1 _
    exact absurd h1 (by decide)

theorem not_smatches_pat1_third {s : List Char} {y : Char} {r : List Char}
    (hrev : s.reverse = '/' :: 's' :: y :: r) (hy : y ≠ 't') : ¬ SMatches pat1 s := by
  rintro ⟨g, hs⟩
  obtain ⟨-, q, hq | hq⟩ := searchend_pat1_iff.mp hs
  · rw [hrev] at hq
    simp only [List.cons_append, List.nil_append] at hq
    injection hq with _ hq
    injection hq with _ hq
    injection hq with h3 _
    exact hy h3
  · rw [hrev] at hq
    injection hq with h1 _
    exact absurd h1 (by decide)

theorem not_smatches_pat2_nondigit {s : List Char} {x : Char} {r : List Char}
    (hrev : s.reverse = '/' :: x :: r) (hx : x.isDigit = false) : ¬ SMatches pat2 s := by
  rintro ⟨g, hs⟩
  obtain ⟨d, q, hne, hdig, -, hor | hor | hor | hor⟩ := searchend_pat2_iff.mp hs
  · obtain ⟨z, zs, hz, hzd⟩ := rev_head_digit hne hdig
    rw [hrev, hz] at hor
    simp only [List.cons_append, List.nil_append] at hor
    injection hor with _ hor
    injection hor with h2 _
    subst h2
    rw [hzd] at hx
    exact Bool.noConfusion hx
  · obtain ⟨z, zs, hz, hzd⟩ := rev_head_digit hne hdig
    rw [hrev, hz] at hor
    simp only [List.cons_append, List.nil_append] at hor
    injection hor with h1 _
    rw [← h1] at hzd
    exact absurd hzd (by decide)
  · rw [hrev] at hor
    injection hor with h1 _
    exact absurd h1 (by decide)
  · rw [hrev] at hor
    injection hor with h1 _
    exact absurd h1 (by decide)

theorem not_smatches_pat3_third {s : List Char} {y : Char} {r : List Char}
    (hrev : s.reverse = '/' :: 's' :: y :: r) (hy : y ≠ 'e') : ¬ SMatches pat3 s := by
  rintro ⟨g, hs⟩
  obtain ⟨d, q, -, -, -, hq | hq⟩ := searchend_pat3_iff.mp hs
  · rw [hrev] at hq
    injection hq with _ hq
    injection hq with _ hq
    injection hq with h3 _
    exact hy h3
  · rw [hrev] at hq
    injection hq with h1 _
    exact absurd h1 (by decide)

/-! ### The routing table, unfolded -/

theorem resolves_urlpatterns {s : List Char} {h : Handler} {g : Option (List Char)} :
    Resolves urlpatterns s h g ↔
      ((SearchEnd pat1 s g ∧ h = Handler.TextList) ∨
       (¬ SMatches pat1 s ∧
         ((SearchEnd pat2 s g ∧ h = Handler.TextDetail) ∨
          (¬ SMatches pat2 s ∧
            ((SearchEnd pat3 s g ∧ h = Handler.WitnessList) ∨
             (¬ SMatches pat3 s ∧
               ((SearchEnd pat4 s g ∧ h = Handler.AnnotationList) ∨
                (¬ SMatches pat4 s ∧ False)))))))) := Iff.rfl

theorem digits_rev_no_slash {d : List Char} (hdig : ∀ c ∈ d, c.isDigit) :
    ¬ '/' ∈ d.reverse := by
  rw [List.mem_reverse]
  exact digits_no_slash hdig

/-! ### Resolution of the canonical path shapes -/

theorem resolves_detail (d : List Char) (hne : d ≠ []) (hdig : ∀ c ∈ d, c.isDigit) :
    Resolves urlpatterns ("texts/".toList ++ d ++ ['/']) Handler.TextDetail (some d) := by
  obtain ⟨z, zs, hz, hzd⟩ := rev_head_digit hne hdig
  have hrev : ("texts/".toList ++ d ++ ['/']).reverse
      = '/' :: z :: (zs ++ ['/', 's', 't', 'x', 'e', 't']) := by
    simp [texts_chars, hz]
  rw [resolves_urlpatterns]
  refine Or.inr ⟨not_smatches_pat1_slash_digit hrev hzd, Or.inl ⟨?_, rfl⟩⟩
  rw [searchend_pat2_iff]
  exact ⟨d, [], hne, hdig, rfl, Or.inl (by simp [texts_chars])⟩

theorem resolves_detail_noslash (d : List Char) (hne : d ≠ [])
    (hdig : ∀ c ∈ d, c.isDigit) :
    Resolves urlpatterns ("texts/".toList ++ d) Handler.TextDetail (some d) := by
  obtain ⟨z, zs, hz, hzd⟩ := rev_head_digit hne hdig
  have hrev : ("texts/".toList ++ d).reverse
      = z :: (zs ++ ['/', 's', 't', 'x', 'e', 't']) := by
    simp [texts_chars, hz]
  rw [resolves_urlpatterns]
  refine Or.inr ⟨not_smatches_pat1_digit_end hrev hzd, Or.inl ⟨?_, rfl⟩⟩
  rw [searchend_pat2_iff]
  exact ⟨d, [], hne, hdig, rfl, Or.inr (Or.inl (by simp [texts_chars]))⟩

theorem resolves_witnesses (d : List Char) (hne : d ≠ [])
    (hdig : ∀ c ∈ d, c.isDigit) :
    Resolves urlpatterns ("texts/".toList ++ d ++ "/witnesses/".toList)
      Handler.WitnessList (some d) := by
  have hrev : ("texts/".toList ++ d ++ "/witnesses/".toList).reverse
      = '/' :: 's' :: 'e' :: ('s' :: 's' :: 'e' :: 'n' :: 't' :: 'i' :: 'w' :: '/' ::
        (d.reverse ++ ['/', 's', 't', 'x', 'e', 't'])) := by
    simp [texts_chars, wit_chars]
  rw [resolves_urlpatterns]
  refine Or.inr ⟨not_smatches_pat1_third hrev (by decide),
    Or.inr ⟨not_smatches_pat2_nondigit hrev (by decide), Or.inl ⟨?_, rfl⟩⟩⟩
  rw [searchend_pat3_iff]
  exact ⟨d, [], hne, hdig, rfl, Or.inl (by simp [texts_chars, wit_chars])⟩

theorem resolves_annotations (d : List Char) (hne : d ≠ [])
    (hdig : ∀ c ∈ d, c.isDigit) :
    Resolves urlpatterns ("texts/".toList ++ d ++ "/annotations/".toList)
      Handler.AnnotationList (some d) := by
  have hrev : ("texts/".toList ++ d ++ "/annotations/".toList).reverse
      = '/' :: 's' :: 'n' :: ('o' :: 'i' :: 't' :: 'a' :: 't' :: 'o' :: 'n' :: 'n' ::
        'a' :: '/' :: (d.reverse ++ ['/', 's', 't', 'x', 'e', 't'])) := by
    simp [texts_chars, ann_chars]
  rw [resolves_urlpatterns]
  refine Or.inr ⟨not_smatches_pat1_third hrev (by decide),
    Or.inr ⟨not_smatches_pat2_nondigit hrev (by decide),
      Or.inr ⟨not_smatches_pat3_third hrev (by decide), Or.inl ⟨?_, rfl⟩⟩⟩⟩
  rw [searchend_pat4_iff]
  exact ⟨d, [], hne, hdig, rfl, Or.inl (by simp [texts_chars, ann_chars])⟩

theorem detail_capture_unique {d : List Char}
    (hdig : ∀ c ∈ d, c.isDigit) {g : Option (List Char)}
    (hs : SearchEnd pat2 ("texts/".toList ++ d ++ ['/']) g) : g = some d := by
  have hrev : ("texts/".toList ++ d ++ ['/']).reverse
      = '/' :: (d.reverse ++ ['/', 's', 't', 'x', 'e', 't']) := by
    simp [texts_chars]
  obtain ⟨e, q, hene, hedig, rfl, hor | hor | hor | hor⟩ := searchend_pat2_iff.mp hs
  · rw [hrev] at hor
    injection hor with _ h
    obtain ⟨h1, -⟩ := noslash_append_inj d.reverse e.reverse _ _
      (digits_rev_no_slash hdig) (digits_rev_no_slash hedig) h
    rw [List.reverse_inj] at h1
    rw [h1]
  · rw [hrev] at hor
    obtain ⟨z, zs, hz, hzd⟩ := rev_head_digit hene hedig
    rw [hz] at hor
    simp only [List.cons_append] at hor
    injection hor with h1 _
    rw [← h1] at hzd
    exact absurd hzd (by decide)
  · rw [hrev] at hor
    injection hor with h1 _
    exact absurd h1 (by decide)
  · rw [hrev] at hor
    injection hor with h1 _
    exact absurd h1 (by decide)

theorem resolves_detail_unique {d : List Char} (hne : d ≠ [])
    (hdig : ∀ c ∈ d, c.isDigit) {h : Handler} {g : Option (List Char)}
    (hr : Resolves urlpatterns ("texts/".toList ++ d ++ ['/']) h g) :
    h = Handler.TextDetail ∧ g = some d := by
  obtain ⟨z, zs, hz, hzd⟩ := rev_head_digit hne hdig
  have hrev : ("texts/".toList ++ d ++ ['/']).reverse
      = '/' :: z :: (zs ++ ['/', 's', 't', 'x', 'e', 't']) := by
    simp [texts_chars, hz]
  rw [resolves_urlpatterns] at hr
  rcases hr with ⟨hs, rfl⟩ | ⟨-, hr⟩
  · exact absurd ⟨_, hs⟩ (not_smatches_pat1_slash_digit hrev hzd)
  rcases hr with ⟨hs, rfl⟩ | ⟨hn2, -⟩
  · exact ⟨rfl, detail_capture_unique hdig hs⟩
  · exact absurd ⟨some d, searchend_pat2_iff.mpr
      ⟨d, [], hne, hdig, rfl, Or.inl (by simp [texts_chars])⟩⟩ hn2

/-! ### Paths with a slash-free, non-numeric identifier segment -/

theorem no_resolve_of_no_match {s : List Char}
    (h1 : ¬ SMatches pat1 s) (h2 : ¬ SMatches pat2 s)
    (h3 : ¬ SMatches pat3 s) (h4 : ¬ SMatches pat4 s) :
    ∀ (h : Handler) (g : Option (List Char)), ¬ Resolves urlpatterns s h g := by
  intro h g hr
  rw [resolves_urlpatterns] at hr
  rcases hr with ⟨hs, -⟩ | ⟨-, hr⟩
  · exact h1 ⟨g, hs⟩
  rcases hr with ⟨hs, -⟩ | ⟨-, hr⟩
  · exact h2 ⟨g, hs⟩
  rcases hr with ⟨hs, -⟩ | ⟨-, hr⟩
  · exact h3 ⟨g, hs⟩
  rcases hr with ⟨hs, -⟩ | ⟨-, hf⟩
  · exact h4 ⟨g, hs⟩
  · exact hf

theorem not_smatches_pat2_segment {s : List Char} (hns : ¬ '/' ∈ s)
    (hnd : ∃ c ∈ s, ¬ c.isDigit) :
    ¬ SMatches pat2 ("texts/".toList ++ s ++ ['/']) := by
  have hrev : ("texts/".toList ++ s ++ ['/']).reverse
      = '/' :: (s.reverse ++ ['/', 's', 't', 'x', 'e', 't']) := by
    simp [texts_chars]
  rintro ⟨g, hs⟩
  obtain ⟨d, q, hdne, hdig, -, hor | hor | hor | hor⟩ := searchend_pat2_iff.mp hs
  · rw [hrev] at hor
    injection hor with _ h
    obtain ⟨h1, -⟩ := noslash_append_inj s.reverse d.reverse ['s', 't', 'x', 'e', 't']
      (['s', 't', 'x', 'e', 't'] ++ q)
      (by rw [List.mem_reverse]; exact hns) (digits_rev_no_slash hdig) h
    rw [List.reverse_inj] at h1
    obtain ⟨c, hc, hcd⟩ := hnd
    rw [h1] at hc
    exact hcd (hdig c hc)
  · rw [hrev] at hor
    obtain ⟨z, zs, hz, hzd⟩ := rev_head_digit hdne hdig
    rw [hz] at hor
    simp only [List.cons_append] at hor
    injection hor with h1 _
    rw [← h1] at hzd
    exact absurd hzd (by decide)
  · rw [hrev] at hor
    injection hor with h1 _
    exact absurd h1 (by decide)
  · rw [hrev] at hor
    injection hor with h1 _
    exact absurd h1 (by decide)

theorem not_smatches_pat3_segment {s : List Char} (hns : ¬ '/' ∈ s) :
    ¬ SMatches pat3 ("texts/".toList ++ s ++ ['/']) := by
  have hrev : ("texts/".toList ++ s ++ ['/']).reverse
      = '/' :: (s.reverse ++ ['/', 's', 't', 'x', 'e', 't']) := by
    simp [texts_chars]
  rintro ⟨g, hs⟩
  obtain ⟨d, q, hdne, hdig, -, hq | hq⟩ := searchend_pat3_iff.mp hs
  · rw [hrev] at hq
    injection hq with _ h
    obtain ⟨-, h2⟩ := noslash_append_inj s.reverse
      ['s', 'e', 's', 's', 'e', 'n', 't', 'i', 'w'] ['s', 't', 'x', 'e', 't']
      (d.reverse ++ (['/', 's', 't', 'x', 'e', 't'] ++ q))
      (by rw [List.mem_reverse]; exact hns) (by decide) h
    have hmem : '/' ∈ d.reverse ++ (['/', 's', 't', 'x', 'e', 't'] ++ q) :=
      List.mem_append.mpr (Or.inr (List.mem_append.mpr (Or.inl (by decide))))
    rw [← h2] at hmem
    exact absurd hmem (by decide)
  · rw [hrev] at hq
    injection hq with h1 _
    exact absurd h1 (by decide)

theorem not_smatches_pat4_segment {s : List Char} (hns : ¬ '/' ∈ s) :
    ¬ SMatches pat4 ("texts/".toList ++ s ++ ['/']) := by
  have hrev : ("texts/".toList ++ s ++ ['/']).reverse
      = '/' :: (s.reverse ++ ['/', 's', 't', 'x', 'e', 't']) := by
    simp [texts_chars]
  rintro ⟨g, hs⟩
  obtain ⟨d, q, hdne, hdig, -, hq | hq⟩ := searchend_pat4_iff.mp hs
  · rw [hrev] at hq
    injection hq with _ h
    obtain ⟨-, h2⟩ := noslash_append_inj s.reverse
      ['s', 'n', 'o', 'i', 't', 'a', 't', 'o', 'n', 'n', 'a'] ['s', 't', 'x', 'e', 't']
      (d.reverse ++ (['/', 's', 't', 'x', 'e', 't'] ++ q))
      (by rw [List.mem_reverse]; exact hns) (by decide) h
    have hmem : '/' ∈ d.reverse ++ (['/', 's', 't', 'x', 'e', 't'] ++ q) :=
      List.mem_append.mpr (Or.inr (List.mem_append.mpr (Or.inl (by decide))))
    rw [← h2] at hmem
    exact absurd hmem (by decide)
  · rw [hrev] at hq
    injection hq with h1 _
    exact absurd h1 (by decide)

theorem not_smatches_pat1_segment {s : List Char}
    (hnt : ∀ t, s ≠ t ++ "texts".toList) :
    ¬ SMatches pat1 ("texts/".toList ++ s ++ ['/']) := by
  have hrev : ("texts/".toList ++ s ++ ['/']).reverse
      = '/' :: (s.reverse ++ ['/', 's', 't', 'x', 'e', 't']) := by
    simp [texts_chars]
  rintro ⟨g, hs⟩
  obtain ⟨-, q, hq | hq⟩ := searchend_pat1_iff.mp hs
  · rw [hrev] at hq
    injection hq with _ h
    rcases List.append_eq_append_iff.mp h with ⟨a2, ha2, hx⟩ | ⟨c2, hc2, -⟩
    · cases a2 with
      | nil =>
          rw [List.append_nil] at ha2
          apply hnt []
          have := congrArg List.reverse ha2
          simpa [texts5_chars] using this.symm
      | cons y ys =>
          injection hx with h1 _
          have hy : y ∈ ['s', 't', 'x', 'e', 't'] := by
            rw [ha2]
            exact List.mem_append.mpr (Or.inr (List.mem_cons_self y ys))
          rw [← h1] at hy
          exact absurd hy (by decide)
    · apply hnt c2.reverse
      have := congrArg List.reverse hc2
      simpa [texts5_chars] using this
  · rw [hrev] at hq
    injection hq with h1 _
    exact absurd h1 (by decide)

theorem resolves_list_of_texts_segment {s t : List Char}
    (ht : s = t ++ "texts".toList) :
    Resolves urlpatterns ("texts/".toList ++ s ++ ['/']) Handler.TextList none := by
  subst ht
  rw [resolves_urlpatterns]
  refine Or.inl ⟨⟨"texts/".toList ++ t, "texts/".toList, Or.inl ?_, mat_pat1.mpr ⟨rfl, rfl⟩⟩, rfl⟩
  simp [texts_chars, texts5_chars]

/-! ### Captured values, and paths ending in a slash -/

theorem resolves_capture_digits {s : List Char} {h : Handler} {x : List Char}
    (hr : Resolves urlpatterns s h (some x)) : x ≠ [] ∧ ∀ c ∈ x, c.isDigit := by
  rw [resolves_urlpatterns] at hr
  rcases hr with ⟨hs, -⟩ | ⟨-, hr⟩
  · obtain ⟨hg, -⟩ := searchend_pat1_iff.mp hs
    exact Option.noConfusion hg
  rcases hr with ⟨hs, -⟩ | ⟨-, hr⟩
  · obtain ⟨d, q, hdne, hdig, hg, -⟩ := searchend_pat2_iff.mp hs
    injection hg with hg
    rw [hg]
    exact ⟨hdne, hdig⟩
  rcases hr with ⟨hs, -⟩ | ⟨-, hr⟩
  · obtain ⟨d, q, hdne, hdig, hg, -⟩ := searchend_pat3_iff.mp hs
    injection hg with hg
    rw [hg]
    exact ⟨hdne, hdig⟩
  rcases hr with ⟨hs, -⟩ | ⟨-, hf⟩
  · obtain ⟨d, q, hdne, hdig, hg, -⟩ := searchend_pat4_iff.mp hs
    injection hg with hg
    rw [hg]
    exact ⟨hdne, hdig⟩
  · exact hf.elim

theorem eq_append_slash_of_rev {s r : List Char} (h : s.reverse = '/' :: r) :
    s = r.reverse ++ ['/'] := by
  have hr := congrArg List.reverse h
  simpa using hr

theorem eq_append_slash_nl_of_rev {s r : List Char} (h : s.reverse = '\n' :: '/' :: r) :
    s = r.reverse ++ ['/', '\n'] := by
  have hr := congrArg List.reverse h
  simpa using hr

theorem searchend_pat1_ends {s : List Char} {g : Option (List Char)}
    (hs : SearchEnd pat1 s g) :
    (∃ t, s = t ++ ['/']) ∨ (∃ t, s = t ++ ['/', '\n']) := by
  obtain ⟨-, q, hq | hq⟩ := searchend_pat1_iff.mp hs
  · exact Or.inl ⟨_, eq_append_slash_of_rev hq⟩
  · exact Or.inr ⟨_, eq_append_slash_nl_of_rev hq⟩

theorem searchend_pat3_ends {s : List Char} {g : Option (List Char)}
    (hs : SearchEnd pat3 s g) :
    (∃ t, s = t ++ ['/']) ∨ (∃ t, s = t ++ ['/', '\n']) := by
  obtain ⟨d, q, -, -, -, hq | hq⟩ := searchend_pat3_iff.mp hs
  · exact Or.inl ⟨_, eq_append_slash_of_rev hq⟩
  · exact Or.inr ⟨_, eq_append_slash_nl_of_rev hq⟩

theorem searchend_pat4_ends {s : List Char} {g : Option (List Char)}
    (hs : SearchEnd pat4 s g) :
    (∃ t, s = t ++ ['/']) ∨ (∃ t, s = t ++ ['/', '\n']) := by
  obtain ⟨d, q, -, -, -, hq | hq⟩ := searchend_pat4_iff.mp hs
  · exact Or.inl ⟨_, eq_append_slash_of_rev hq⟩
  · exact Or.inr ⟨_, eq_append_slash_nl_of_rev hq⟩

/-! ### Matches survive an arbitrary leading path -/

theorem not_pat1_append_detail {p w : List Char} {g : Option (List Char)}
    (hm : Mat pat2 w g) : ¬ SMatches pat1 (p ++ w) := by
  obtain ⟨d, hne, hdig, -, hw | hw⟩ := mat_pat2.mp hm
  · subst hw
    obtain ⟨z, zs, hz, hzd⟩ := rev_head_digit hne hdig
    have hrev : (p ++ ("texts/".toList ++ d ++ ['/'])).reverse
        = '/' :: z :: (zs ++ (['/', 's', 't', 'x', 'e', 't'] ++ p.reverse)) := by
      simp [texts_chars, hz]
    exact not_smatches_pat1_slash_digit hrev hzd
  · subst hw
    obtain ⟨z, zs, hz, hzd⟩ := rev_head_digit hne hdig
    have hrev : (p ++ ("texts/".toList ++ d)).reverse
        = z :: (zs ++ (['/', 's', 't', 'x', 'e', 't'] ++ p.reverse)) := by
      simp [texts_chars, hz]
    exact not_smatches_pat1_digit_end hrev hzd

theorem append_wit_rev (p d : List Char) :
    (p ++ ("texts/".toList ++ d ++ "/witnesses/".toList)).reverse
      = '/' :: 's' :: 'e' :: ('s' :: 's' :: 'e' :: 'n' :: 't' :: 'i' :: 'w' :: '/' ::
        (d.reverse ++ (['/', 's', 't', 'x', 'e', 't'] ++ p.reverse))) := by
  simp [texts_chars, wit_chars]

theorem append_ann_rev (p d : List Char) :
    (p ++ ("texts/".toList ++ d ++ "/annotations/".toList)).reverse
      = '/' :: 's' :: 'n' :: ('o' :: 'i' :: 't' :: 'a' :: 't' :: 'o' :: 'n' :: 'n' ::
        'a' :: '/' :: (d.reverse ++ (['/', 's', 't', 'x', 'e', 't'] ++ p.reverse))) := by
  simp [texts_chars, ann_chars]

theorem isDigit_iff_range {c : Char} : c.isDigit = true ↔ ('0' ≤ c ∧ c ≤ '9') := by
  simp only [Char.isDigit, ge_iff_le, Bool.and_eq_true, decide_eq_true_eq, Char.le_def,
    show ('0' : Char).val = 48 from rfl, show ('9' : Char).val = 57 from rfl]

/-! ### The claims -/

/-- C1: for every string d of one or more decimal digits, the path texts/d/
resolves to the TextDetail handler with the captured keyword argument text_id
equal to d, and no other handler or captured value is possible for it. -/
theorem C1_detail_route (d : List Char) (hne : d ≠ []) (hdig : ∀ c ∈ d, c.isDigit) :
    Resolves urlpatterns ("texts/".toList ++ d ++ ['/']) Handler.TextDetail (some d) ∧
    ∀ (h : Handler) (g : Option (List Char)),
      Resolves urlpatterns ("texts/".toList ++ d ++ ['/']) h g →
        h = Handler.TextDetail ∧ g = some d :=
  ⟨resolves_detail d hne hdig, fun _ _ hr => resolves_detail_unique hne hdig hr⟩

/-- C1 witness: the path texts/123/ resolves to TextDetail capturing 123. -/
theorem C1_detail_route_witness :
    Resolves urlpatterns ("texts/".toList ++ ['1', '2', '3'] ++ ['/'])
      Handler.TextDetail (some ['1', '2', '3']) ∧
    ∀ (h : Handler) (g : Option (List Char)),
      Resolves urlpatterns ("texts/".toList ++ ['1', '2', '3'] ++ ['/']) h g →
        h = Handler.TextDetail ∧ g = some ['1', '2', '3'] :=
  C1_detail_route ['1', '2', '3'] (by decide) (by decide)

/-- C2 counterexample: the path texts/0/ is matched and resolves to the
TextDetail handler with captured text_id the single character 0, a value
denoting zero rather than a positive integer; so a path whose text_id
segment denotes zero is matched by the detail pattern. -/
theorem C2_zero_counterexample :
    Resolves urlpatterns ("texts/".toList ++ ['0'] ++ ['/'])
      Handler.TextDetail (some ['0']) :=
  resolves_detail ['0'] (by decide) (by decide)

/-- C2 amended: every value captured as the text_id path parameter is a
nonempty string of decimal digits, hence denotes a nonnegative integer; the
digit string 0, denoting zero, is among the values those patterns accept. -/
theorem C2_amended_capture_digits (s : List Char) (h : Handler) (x : List Char)
    (hr : Resolves urlpatterns s h (some x)) : x ≠ [] ∧ ∀ c ∈ x, c.isDigit :=
  resolves_capture_digits hr

/-- C2 amended witness: the capture of texts/7/ is the nonempty digit
string 7. -/
theorem C2_amended_capture_digits_witness :
    (['7'] : List Char) ≠ [] ∧ ∀ c ∈ (['7'] : List Char), c.isDigit :=
  C2_amended_capture_digits ("texts/".toList ++ ['7'] ++ ['/']) Handler.TextDetail ['7']
    (resolves_detail ['7'] (by decide) (by decide))

/-- C3: the path texts/ resolves to the TextList handler; the TextDetail
pattern does not search-match texts/ under any decomposition, and texts/
never resolves to TextDetail with any capture. -/
theorem C3_list_route :
    Resolves urlpatterns "texts/".toList Handler.TextList none ∧
    ¬ SMatches pat2 "texts/".toList ∧
    ∀ g : Option (List Char), ¬ Resolves urlpatterns "texts/".toList Handler.TextDetail g := by
  have hrev : ("texts/".toList).reverse = '/' :: 's' :: ['t', 'x', 'e', 't'] := by decide
  have h2 : ¬ SMatches pat2 "texts/".toList := not_smatches_pat2_nondigit hrev (by decide)
  refine ⟨?_, h2, ?_⟩
  · rw [resolves_urlpatterns]
    exact Or.inl ⟨⟨[], "texts/".toList, Or.inl rfl, mat_pat1.mpr ⟨rfl, rfl⟩⟩, rfl⟩
  · intro g hr
    rw [resolves_urlpatterns] at hr
    rcases hr with ⟨-, he⟩ | ⟨-, hr⟩
    · exact Handler.noConfusion he
    rcases hr with ⟨hs, -⟩ | ⟨-, hr⟩
    · exact h2 ⟨g, hs⟩
    rcases hr with ⟨-, he⟩ | ⟨-, hr⟩
    · exact Handler.noConfusion he
    rcases hr with ⟨-, he⟩ | ⟨-, hf⟩
    · exact Handler.noConfusion he
    · exact hf

/-- C4: for every string d of one or more decimal digits, the path
texts/d/witnesses/ resolves to the WitnessList handler capturing d, and the
TextDetail pattern, although tried earlier in list order, does not
search-match that path. -/
theorem C4_witnesses_route (d : List Char) (hne : d ≠ []) (hdig : ∀ c ∈ d, c.isDigit) :
    Resolves urlpatterns ("texts/".toList ++ d ++ "/witnesses/".toList)
      Handler.WitnessList (some d) ∧
    ¬ SMatches pat2 ("texts/".toList ++ d ++ "/witnesses/".toList) := by
  have hrev : ("texts/".toList ++ d ++ "/witnesses/".toList).reverse
      = '/' :: 's' :: ('e' :: 's' :: 's' :: 'e' :: 'n' :: 't' :: 'i' :: 'w' :: '/' ::
        (d.reverse ++ ['/', 's', 't', 'x', 'e', 't'])) := by
    simp [texts_chars, wit_chars]
  exact ⟨resolves_witnesses d hne hdig, not_smatches_pat2_nondigit hrev (by decide)⟩

/-- C4 witness: texts/42/witnesses/ resolves to WitnessList and is not
matched by the TextDetail pattern. -/
theorem C4_witnesses_route_witness :
    Resolves urlpatterns ("texts/".toList ++ ['4', '2'] ++ "/witnesses/".toList)
      Handler.WitnessList (some ['4', '2']) ∧
    ¬ SMatches pat2 ("texts/".toList ++ ['4', '2'] ++ "/witnesses/".toList) :=
  C4_witnesses_route ['4', '2'] (by decide) (by decide)

/-- C5: for every string d of one or more decimal digits, the path
texts/d/annotations/ resolves to the AnnotationList handler capturing d, and
neither the TextDetail pattern nor the WitnessList pattern search-matches
that path. -/
theorem C5_annotations_route (d : List Char) (hne : d ≠ [])
    (hdig : ∀ c ∈ d, c.isDigit) :
    Resolves urlpatterns ("texts/".toList ++ d ++ "/annotations/".toList)
      Handler.AnnotationList (some d) ∧
    ¬ SMatches pat2 ("texts/".toList ++ d ++ "/annotations/".toList) ∧
    ¬ SMatches pat3 ("texts/".toList ++ d ++ "/annotations/".toList) := by
  have hrev : ("texts/".toList ++ d ++ "/annotations/".toList).reverse
      = '/' :: 's' :: ('n' :: 'o' :: 'i' :: 't' :: 'a' :: 't' :: 'o' :: 'n' :: 'n' ::
        'a' :: '/' :: (d.reverse ++ ['/', 's', 't', 'x', 'e', 't'])) := by
    simp [texts_chars, ann_chars]
  exact ⟨resolves_annotations d hne hdig,
    not_smatches_pat2_nondigit hrev (by decide),
    not_smatches_pat3_third hrev (by decide)⟩

/-- C5 witness: texts/5/annotations/ resolves to AnnotationList and is not
matched by the TextDetail or WitnessList patterns. -/
theorem C5_annotations_route_witness :
    Resolves urlpatterns ("texts/".toList ++ ['5'] ++ "/annotations/".toList)
      Handler.AnnotationList (some ['5']) ∧
    ¬ SMatches pat2 ("texts/".toList ++ ['5'] ++ "/annotations/".toList) ∧
    ¬ SMatches pat3 ("texts/".toList ++ ['5'] ++ "/annotations/".toList) :=
  C5_annotations_route ['5'] (by decide) (by decide)

/-- C6 counterexample: the path texts/mytexts/ has the identifier segment
mytexts, a slash-free segment containing non-digit characters, yet resolution
does not fall through: because the list pattern is not anchored at the start,
it matches the trailing texts/ of the path, which therefore resolves to the
TextList handler. -/
theorem C6_nondigit_counterexample :
    "texts/mytexts/".toList = "texts/".toList ++ "mytexts".toList ++ ['/'] ∧
    ¬ '/' ∈ "mytexts".toList ∧ (∃ c ∈ "mytexts".toList, ¬ c.isDigit) ∧
    Resolves urlpatterns "texts/mytexts/".toList Handler.TextList none := by
  refine ⟨by decide, by decide, ⟨'m', by decide, by decide⟩, ?_⟩
  rw [resolves_urlpatterns]
  exact Or.inl ⟨⟨"texts/my".toList, "texts/".toList, Or.inl (by decide),
    mat_pat1.mpr ⟨rfl, rfl⟩⟩, rfl⟩

/-- C6 amended: for every path texts/s/ whose identifier segment s is
slash-free and contains a non-digit character, none of the detail, witness or
annotation patterns search-matches the path; when moreover s does not end
with the five characters texts, no pattern matches at all and resolution
yields no handler, while when s does end with texts the unanchored list
pattern matches and the path resolves to the TextList handler. -/
theorem C6_amended_nondigit_segment (s : List Char) (hns : ¬ '/' ∈ s)
    (hnd : ∃ c ∈ s, ¬ c.isDigit) :
    ¬ SMatches pat2 ("texts/".toList ++ s ++ ['/']) ∧
    ¬ SMatches pat3 ("texts/".toList ++ s ++ ['/']) ∧
    ¬ SMatches pat4 ("texts/".toList ++ s ++ ['/']) ∧
    ((∀ t, s ≠ t ++ "texts".toList) →
      ∀ (h : Handler) (g : Option (List Char)),
        ¬ Resolves urlpatterns ("texts/".toList ++ s ++ ['/']) h g) ∧
    (∀ t, s = t ++ "texts".toList →
      Resolves urlpatterns ("texts/".toList ++ s ++ ['/']) Handler.TextList none) := by
  refine ⟨not_smatches_pat2_segment hns hnd, not_smatches_pat3_segment hns,
    not_smatches_pat4_segment hns, ?_, ?_⟩
  · intro hnt
    exact no_resolve_of_no_match (not_smatches_pat1_segment hnt)
      (not_smatches_pat2_segment hns hnd) (not_smatches_pat3_segment hns)
      (not_smatches_pat4_segment hns)
  · intro t ht
    exact resolves_list_of_texts_segment ht

/-- C6 amended witness: the path texts/abc/ is matched by none of the four
patterns and resolves to no handler. -/
theorem C6_amended_nondigit_segment_witness :
    ¬ SMatches pat2 ("texts/".toList ++ "abc".toList ++ ['/']) ∧
    ¬ SMatches pat3 ("texts/".toList ++ "abc".toList ++ ['/']) ∧
    ¬ SMatches pat4 ("texts/".toList ++ "abc".toList ++ ['/']) ∧
    ((∀ t, "abc".toList ≠ t ++ "texts".toList) →
      ∀ (h : Handler) (g : Option (List Char)),
        ¬ Resolves urlpatterns ("texts/".toList ++ "abc".toList ++ ['/']) h g) ∧
    (∀ t, "abc".toList = t ++ "texts".toList →
      Resolves urlpatterns ("texts/".toList ++ "abc".toList ++ ['/'])
        Handler.TextList none) :=
  C6_amended_nondigit_segment "abc".toList (by decide) ⟨'a', by decide, by decide⟩

/-- C7: the text_id capture group, the regex [0-9]+, matches a segment
exactly when the segment is a nonempty string of characters between 0 and 9,
and the value it captures is the whole segment. -/
theorem C7_text_id_digits (w : List Char) :
    ((∃ g, Mat textIdGroup w g) ↔ (w ≠ [] ∧ ∀ c ∈ w, ('0' ≤ c ∧ c ≤ '9'))) ∧
    ∀ g, Mat textIdGroup w g → g = some w := by
  constructor
  · constructor
    · rintro ⟨g, hm⟩
      obtain ⟨⟨hne, hdig⟩, -⟩ := mat_textIdGroup.mp hm
      exact ⟨hne, fun c hc => isDigit_iff_range.mp (hdig c hc)⟩
    · rintro ⟨hne, hdig⟩
      exact ⟨some w, mat_textIdGroup.mpr
        ⟨⟨hne, fun c hc => isDigit_iff_range.mpr (hdig c hc)⟩, rfl⟩⟩
  · intro g hm
    exact (mat_textIdGroup.mp hm).2

/-- C7 witness: the segment 07 is matched by the capture group, capturing
itself. -/
theorem C7_text_id_digits_witness : ∃ g, Mat textIdGroup ['0', '7'] g :=
  (C7_text_id_digits ['0', '7']).1.mpr (by decide)

/-- C8: urlpatterns is a fixed list of exactly four entries mapping, in
order, the list pattern to TextList, the detail pattern to TextDetail, the
witness pattern to WitnessList and the annotation pattern to
AnnotationList. -/
theorem C8_table_shape :
    urlpatterns.length = 4 ∧
    urlpatterns.map UrlEntry.regex = [pat1, pat2, pat3, pat4] ∧
    urlpatterns.map UrlEntry.view =
      [Handler.TextList, Handler.TextDetail, Handler.WitnessList,
       Handler.AnnotationList] :=
  ⟨rfl, rfl, rfl⟩

/-- C9 counterexample: in Python regular expressions the anchor $ also
matches just before a newline that ends the string, so the list pattern
search-matches the path made of texts/ followed by a single newline, a path
that does not end with the trailing slash; the list pattern therefore does
not match only when the trailing slash is the last character, refuting the
claim that the list, witness and annotation patterns match only with the
trailing slash present. -/
theorem C9_newline_counterexample :
    SMatches pat1 ("texts/".toList ++ ['\n']) ∧
    ∀ t, "texts/".toList ++ ['\n'] ≠ t ++ ['/'] := by
  constructor
  · exact ⟨none, [], "texts/".toList, Or.inr (by decide), mat_pat1.mpr ⟨rfl, rfl⟩⟩
  · intro t ht
    have h := congrArg List.reverse ht
    rw [show ("texts/".toList ++ ['\n']).reverse
        = '\n' :: ['/', 's', 't', 'x', 'e', 't'] from by decide,
      List.reverse_append] at h
    injection h with h1 _
    exact absurd h1 (by decide)

/-- C9 amended: the trailing slash of the detail route is optional: for
every string d of one or more decimal digits the path texts/d, without a
trailing slash, also resolves to TextDetail capturing d, whereas every path
search-matched by the list, witness or annotation pattern ends with the
trailing slash, or with the trailing slash followed by the single trailing
newline that the $ anchor also accepts. -/
theorem C9_amended_optional_slash (d : List Char) (hne : d ≠ [])
    (hdig : ∀ c ∈ d, c.isDigit) :
    Resolves urlpatterns ("texts/".toList ++ d) Handler.TextDetail (some d) ∧
    (∀ (s : List Char) (g : Option (List Char)), SearchEnd pat1 s g →
      (∃ t, s = t ++ ['/']) ∨ (∃ t, s = t ++ ['/', '\n'])) ∧
    (∀ (s : List Char) (g : Option (List Char)), SearchEnd pat3 s g →
      (∃ t, s = t ++ ['/']) ∨ (∃ t, s = t ++ ['/', '\n'])) ∧
    (∀ (s : List Char) (g : Option (List Char)), SearchEnd pat4 s g →
      (∃ t, s = t ++ ['/']) ∨ (∃ t, s = t ++ ['/', '\n'])) :=
  ⟨resolves_detail_noslash d hne hdig,
   fun _ _ hs => searchend_pat1_ends hs,
   fun _ _ hs => searchend_pat3_ends hs,
   fun _ _ hs => searchend_pat4_ends hs⟩

/-- C9 amended witness: texts/9 resolves to TextDetail capturing 9. -/
theorem C9_amended_optional_slash_witness :
    Resolves urlpatterns ("texts/".toList ++ ['9']) Handler.TextDetail (some ['9']) :=
  (C9_amended_optional_slash ['9'] (by decide) (by decide)).1

/-- C10: none of the four patterns is anchored at the start of the path: for
every leading string p and every string w matched entirely by a pattern, the
path p followed by w resolves to the handler of that pattern, so arbitrary
leading path material is accepted. -/
theorem C10_unanchored :
    (∀ (p w : List Char) (g : Option (List Char)),
      Mat pat1 w g → Resolves urlpatterns (p ++ w) Handler.TextList g) ∧
    (∀ (p w : List Char) (g : Option (List Char)),
      Mat pat2 w g → Resolves urlpatterns (p ++ w) Handler.TextDetail g) ∧
    (∀ (p w : List Char) (g : Option (List Char)),
      Mat pat3 w g → Resolves urlpatterns (p ++ w) Handler.WitnessList g) ∧
    (∀ (p w : List Char) (g : Option (List Char)),
      Mat pat4 w g → Resolves urlpatterns (p ++ w) Handler.AnnotationList g) := by
  refine ⟨?_, ?_, ?_, ?_⟩
  · intro p w g hm
    rw [resolves_urlpatterns]
    exact Or.inl ⟨⟨p, w, Or.inl rfl, hm⟩, rfl⟩
  · intro p w g hm
    rw [resolves_urlpatterns]
    exact Or.inr ⟨not_pat1_append_detail hm, Or.inl ⟨⟨p, w, Or.inl rfl, hm⟩, rfl⟩⟩
  · intro p w g hm
    have hse : SearchEnd pat3 (p ++ w) g := ⟨p, w, Or.inl rfl, hm⟩
    obtain ⟨d, -, -, -, hw⟩ := mat_pat3.mp hm
    subst hw
    have hrev := append_wit_rev p d
    rw [resolves_urlpatterns]
    exact Or.inr ⟨not_smatches_pat1_third hrev (by decide),
      Or.inr ⟨not_smatches_pat2_nondigit hrev (by decide), Or.inl ⟨hse, rfl⟩⟩⟩
  · intro p w g hm
    have hse : SearchEnd pat4 (p ++ w) g := ⟨p, w, Or.inl rfl, hm⟩
    obtain ⟨d, -, -, -, hw⟩ := mat_pat4.mp hm
    subst hw
    have hrev := append_ann_rev p d
    rw [resolves_urlpatterns]
    exact Or.inr ⟨not_smatches_pat1_third hrev (by decide),
      Or.inr ⟨not_smatches_pat2_nondigit hrev (by decide),
        Or.inr ⟨not_smatches_pat3_third hrev (by decide), Or.inl ⟨hse, rfl⟩⟩⟩⟩

/-- C10 witness: with the leading material x, the path xtexts/ still resolves
to TextList. -/
theorem C10_unanchored_witness :
    Resolves urlpatterns ("x".toList ++ "texts/".toList) Handler.TextList none :=
  C10_unanchored.1 "x".toList "texts/".toList none (mat_pat1.mpr ⟨rfl, rfl⟩)
